import Mathlib

/-!
Verification of the feature-selection / model-selection / backtest pipeline
of the projeto_cripto_ia repository, as a shallow embedding in Lean 4.

Conventions of the embedding:
* machine floats carrying finite metric values are modelled as rationals (ℚ);
* a Python exception raised by a library call (`fit`/`predict`) is modelled
  as `Option.none`; `float("nan")` fold entries are likewise `none`;
* external library routines (scikit-learn model fitting, statsmodels VIF)
  are abstracted as parameters: the repository's own control flow around
  them is translated literally from `src/model_training.py`,
  `src/preprocessing.py` and `src/prediction_profit.py`.
-/

namespace CriptoIA

/-- The four candidate regressor kinds of `model_training.py`
(`model_defs` in `get_best_model_by_mse`). -/
inductive ModelKind where
  | mlp
  | linear
  | polynomial
  | randomForest
deriving DecidableEq, Repr

/-- A candidate entry of the `model_defs` dict of `get_best_model_by_mse`:
its dict key, the model object (by kind), and the outcome of each
cross-validation fold: `some m` is the fold's MSE, `none` means the fold's
`fit`/`predict` raised an exception. -/
structure Candidate where
  name : String
  kind : ModelKind
  folds : List (Option ℚ)
deriving Repr

/-- The `model_defs` dict of `get_best_model_by_mse` in insertion order:
MLP, Linear, Polynomial, RandomForest; `fi` is candidate `i`'s fold data. -/
def candidateList (f0 f1 f2 f3 : List (Option ℚ)) : List Candidate :=
  [⟨"MLP", ModelKind.mlp, f0⟩,
   ⟨"Linear", ModelKind.linear, f1⟩,
   ⟨"Polynomial", ModelKind.polynomial, f2⟩,
   ⟨"RandomForest", ModelKind.randomForest, f3⟩]

/-- The inner fold loop of `get_best_model_by_mse` (lines 597-603): the
`mse_scores` list grows fold by fold; the first exception aborts the whole
candidate (the `try` encloses the entire loop), yielding `none`. -/
def runFolds : List (Option ℚ) → Option (List ℚ)
  | [] => some []
  | none :: _ => none
  | some m :: rest => (runFolds rest).map (fun l => m :: l)

/-- `np.mean` of a list of fold MSEs (`avg_mse` at line 605). -/
def avgMse (l : List ℚ) : ℚ := l.sum / l.length

/-- Mean K-fold MSE of a candidate, or `none` if its evaluation raised. -/
def candidateAvg (c : Candidate) : Option ℚ :=
  (runFolds c.folds).map avgMse

/-- One iteration of the selection loop of `get_best_model_by_mse`
(lines 595-613): a raising candidate leaves the running best unchanged
(the `except` only logs); otherwise `if avg_mse < best_mse` updates the
best, with `best_mse` initially `float("inf")` modelled by `none`. -/
def selectStep (acc : Option (Candidate × ℚ)) (c : Candidate) :
    Option (Candidate × ℚ) :=
  match candidateAvg c with
  | none => acc
  | some avg =>
    match acc with
    | none => some (c, avg)
    | some (b, bm) => if avg < bm then some (c, avg) else some (b, bm)

/-- The full selection loop over the candidate dict. -/
def selectBest (cands : List Candidate) : Option (Candidate × ℚ) :=
  cands.foldl selectStep none

/-- `get_best_model_by_mse`: returns the pair `(best_model, best_name)`
(line 631); both components stay `None` when no candidate succeeded. -/
def getBestModelByMse (cands : List Candidate) :
    Option ModelKind × Option String :=
  match selectBest cands with
  | none => (none, none)
  | some (c, _) => (some c.kind, some c.name)

theorem runFolds_map_some (l : List ℚ) : runFolds (l.map some) = some l := by
  induction l with
  | nil => rfl
  | cons a t ih => simp [runFolds, ih]

theorem candidateAvg_mk_some (n : String) (k : ModelKind) (l : List ℚ) :
    candidateAvg ⟨n, k, l.map some⟩ = some (avgMse l) := by
  simp [candidateAvg, runFolds_map_some]

example :
    getBestModelByMse
      (candidateList [some 2, some 4] [some 1, some 1] [some 3, some 3]
        [some 1, some 1]) = (some ModelKind.linear, some "Linear") := by
  norm_num [getBestModelByMse, selectBest, candidateList, selectStep,
    candidateAvg, runFolds, avgMse]

example :
    getBestModelByMse
      (candidateList [none, some 0] [some 1, some 1] [some 3, some 3]
        [some 5, some 5]) = (some ModelKind.linear, some "Linear") := by
  norm_num [getBestModelByMse, selectBest, candidateList, selectStep,
    candidateAvg, runFolds, avgMse]

/-- The four model kinds in `model_defs` iteration order. -/
def kindAt : Fin 4 → ModelKind :=
  ![ModelKind.mlp, ModelKind.linear, ModelKind.polynomial,
    ModelKind.randomForest]

/-- The four model names in `model_defs` iteration order. -/
def nameAt : Fin 4 → String :=
  !["MLP", "Linear", "Polynomial", "RandomForest"]

/-- C1: for every run of `get_best_model_by_mse` in which all four
candidates (MLP, Linear, Polynomial, RandomForest, iterated in that order)
evaluate without exception with fold MSEs `s0..s3`, the function returns
the candidate whose mean K-fold MSE is lowest, and on ties the candidate
seen first in iteration order wins: the returned index `i` has a mean no
larger than every candidate's mean and strictly smaller than the mean of
every earlier candidate. -/
theorem getBest_picks_lowest_mean_mse_first_seen (s0 s1 s2 s3 : List ℚ) :
    ∃ i : Fin 4,
      getBestModelByMse
          (candidateList (s0.map some) (s1.map some) (s2.map some)
            (s3.map some)) = (some (kindAt i), some (nameAt i)) ∧
      (∀ j : Fin 4,
        ![avgMse s0, avgMse s1, avgMse s2, avgMse s3] i ≤
          ![avgMse s0, avgMse s1, avgMse s2, avgMse s3] j) ∧
      (∀ j : Fin 4, j < i →
        ![avgMse s0, avgMse s1, avgMse s2, avgMse s3] i <
          ![avgMse s0, avgMse s1, avgMse s2, avgMse s3] j) := by
  by_cases h1 : avgMse s1 < avgMse s0
  · by_cases h2 : avgMse s2 < avgMse s1
    · by_cases h3 : avgMse s3 < avgMse s2
      · exact ⟨3, by simp [getBestModelByMse, selectBest, candidateList,
            selectStep, candidateAvg_mk_some, kindAt, nameAt, h1, h2, h3],
          by intro j; fin_cases j <;> simp <;> linarith,
          by intro j hj; fin_cases j <;>
            first | exact absurd hj (by decide) | (simp; linarith)⟩
      · exact ⟨2, by simp [getBestModelByMse, selectBest, candidateList,
            selectStep, candidateAvg_mk_some, kindAt, nameAt, h1, h2, h3],
          by intro j; fin_cases j <;> simp <;> linarith,
          by intro j hj; fin_cases j <;>
            first | exact absurd hj (by decide) | (simp; linarith)⟩
    · by_cases h3 : avgMse s3 < avgMse s1
      · exact ⟨3, by simp [getBestModelByMse, selectBest, candidateList,
            selectStep, candidateAvg_mk_some, kindAt, nameAt, h1, h2, h3],
          by intro j; fin_cases j <;> simp <;> linarith,
          by intro j hj; fin_cases j <;>
            first | exact absurd hj (by decide) | (simp; linarith)⟩
      · exact ⟨1, by simp [getBestModelByMse, selectBest, candidateList,
            selectStep, candidateAvg_mk_some, kindAt, nameAt, h1, h2, h3],
          by intro j; fin_cases j <;> simp <;> linarith,
          by intro j hj; fin_cases j <;>
            first | exact absurd hj (by decide) | (simp; linarith)⟩
  · by_cases h2 : avgMse s2 < avgMse s0
    · by_cases h3 : avgMse s3 < avgMse s2
      · exact ⟨3, by simp [getBestModelByMse, selectBest, candidateList,
            selectStep, candidateAvg_mk_some, kindAt, nameAt, h1, h2, h3],
          by intro j; fin_cases j <;> simp <;> linarith,
          by intro j hj; fin_cases j <;>
            first | exact absurd hj (by decide) | (simp; linarith)⟩
      · exact ⟨2, by simp [getBestModelByMse, selectBest, candidateList,
            selectStep, candidateAvg_mk_some, kindAt, nameAt, h1, h2, h3],
          by intro j; fin_cases j <;> simp <;> linarith,
          by intro j hj; fin_cases j <;>
            first | exact absurd hj (by decide) | (simp; linarith)⟩
    · by_cases h3 : avgMse s3 < avgMse s0
      · exact ⟨3, by simp [getBestModelByMse, selectBest, candidateList,
            selectStep, candidateAvg_mk_some, kindAt, nameAt, h1, h2, h3],
          by intro j; fin_cases j <;> simp <;> linarith,
          by intro j hj; fin_cases j <;>
            first | exact absurd hj (by decide) | (simp; linarith)⟩
      · exact ⟨0, by simp [getBestModelByMse, selectBest, candidateList,
            selectStep, candidateAvg_mk_some, kindAt, nameAt, h1, h2, h3],
          by intro j; fin_cases j <;> simp <;> linarith,
          by intro j hj; fin_cases j <;>
            first | exact absurd hj (by decide) | (simp; linarith)⟩

theorem selectStep_of_runFolds_none (acc : Option (Candidate × ℚ))
    (c : Candidate) (h : runFolds c.folds = none) : selectStep acc c = acc := by
  simp [selectStep, candidateAvg, h]

/-- C10: when every one of the four candidates raises during its
cross-validation loop, `get_best_model_by_mse` returns the pair
`(None, None)` instead of raising: the caller receives no model and no
model name. -/
theorem getBest_all_failures_returns_none_none
    (f0 f1 f2 f3 : List (Option ℚ)) (h0 : runFolds f0 = none)
    (h1 : runFolds f1 = none) (h2 : runFolds f2 = none)
    (h3 : runFolds f3 = none) :
    getBestModelByMse (candidateList f0 f1 f2 f3) = (none, none) := by
  simp [getBestModelByMse, selectBest, candidateList,
    selectStep_of_runFolds_none, h0, h1, h2, h3]

theorem getBest_all_failures_witness :
    runFolds [none, some 1] = none ∧
      getBestModelByMse
        (candidateList [none, some 1] [none, some 1] [none, some 1]
          [none, some 1]) = (none, none) :=
  ⟨rfl, getBest_all_failures_returns_none_none _ _ _ _ rfl rfl rfl rfl⟩

/-- Fold outcomes of the four candidates as a function of the random seed
handed to `KFold`, `RandomForestRegressor` and `MLPRegressor`, together
with the inputs (X, y, kfolds, poly_degree, n_estimators, test_size) that
the scores depend on; the dependence is abstract. -/
def seededFoldScores := ℕ → Fin 4 → List (Option ℚ)

/-- Model selection as the caller sees it: `get_best_model_by_mse`
constructs `KFold(..., random_state=42)`,
`RandomForestRegressor(..., random_state=42)` and
`MLPRegressor(..., random_state=42)` internally, so every source of
randomness is evaluated at the fixed seed 42; any ambient random state a
non-seeded implementation would consume is ignored. -/
def getBestModelByMseSeeded (scores : seededFoldScores)
    (ambientRandomState : ℕ) : Option ModelKind × Option String :=
  getBestModelByMse
    (candidateList (scores 42 0) (scores 42 1) (scores 42 2) (scores 42 3))

/-- C9: model selection is deterministic: two calls of
`get_best_model_by_mse` with identical X, y, kfolds, poly_degree,
n_estimators and test_size (identical `scores`) return the same selected
model and name, whatever the ambient random state of each call, because
all randomness (K-fold shuffling, RandomForest, MLP) uses the fixed seed
42. -/
theorem getBest_deterministic (scores : seededFoldScores) (r1 r2 : ℕ) :
    getBestModelByMseSeeded scores r1 = getBestModelByMseSeeded scores r2 :=
  rfl

/-- np.nanmean over fold scores with `none` for NaN: the mean of the
non-NaN entries, undefined (NaN, modelled `none`) when all entries are
NaN. -/
def nanmean (folds : List (Option ℚ)) : Option ℚ :=
  match folds.reduceOption with
  | [] => none
  | v :: vs => some (avgMse (v :: vs))

theorem nanmean_eq_some (folds : List (Option ℚ))
    (h : folds.reduceOption ≠ []) :
    nanmean folds = some (avgMse folds.reduceOption) := by
  unfold nanmean
  rcases hr : folds.reduceOption with _ | ⟨v, vs⟩
  · exact absurd hr h
  · rfl

/-- The results table of `compare_models` (lines 272-323): per-fold
exceptions are recorded as NaN in `mse_scores`; a row (name, Avg MSE with
`np.nanmean`) is appended unless the candidate's scores are all NaN. -/
def compareModelsResults (cands : List Candidate) : List (String × ℚ) :=
  cands.filterMap (fun c => (nanmean c.folds).map (fun m => (c.name, m)))

/-- The selection rule exactly as the claim states it (claim-side
definition, for comparison with `getBestModelByMse`): a raising fold is
recorded as NaN and excluded from the candidate's mean, which is taken
over the non-NaN folds only; an all-NaN candidate is never selected;
otherwise lowest mean wins with first-seen tie-break. -/
def claimedStep (acc : Option (Candidate × ℚ)) (c : Candidate) :
    Option (Candidate × ℚ) :=
  match nanmean c.folds with
  | none => acc
  | some avg =>
    match acc with
    | none => some (c, avg)
    | some (b, bm) => if avg < bm then some (c, avg) else some (b, bm)

/-- The claim-side selection over the candidate iteration. -/
def claimedNanSelection (cands : List Candidate) : Option String :=
  (cands.foldl claimedStep none).map (fun p => p.1.name)

/-- C3 counterexample: MLP raises on its first fold only (its remaining
folds score 0); Linear, Polynomial, RandomForest succeed with means
1, 2, 3. The claim's per-fold-NaN rule gives MLP mean 0 and selects MLP;
`get_best_model_by_mse` aborts the entire MLP candidate at the raising
fold (its `try` encloses the whole fold loop) and selects Linear. -/
theorem getBest_fold_nan_claim_counterexample :
    (getBestModelByMse
        (candidateList [none, some 0, some 0] [some 1, some 1, some 1]
          [some 2, some 2, some 2] [some 3, some 3, some 3])).2 =
        some "Linear" ∧
      claimedNanSelection
        (candidateList [none, some 0, some 0] [some 1, some 1, some 1]
          [some 2, some 2, some 2] [some 3, some 3, some 3]) =
        some "MLP" ∧
      some "Linear" ≠ some "MLP" := by
  refine ⟨?_, ?_, by simp⟩
  · norm_num [getBestModelByMse, selectBest, candidateList, selectStep,
      candidateAvg, runFolds, avgMse]
  · norm_num [claimedNanSelection, candidateList, claimedStep, nanmean,
      List.reduceOption, List.filterMap_cons, avgMse]

theorem foldl_selectStep_filter (l : List Candidate)
    (acc : Option (Candidate × ℚ)) :
    l.foldl selectStep acc =
      (l.filter (fun c => (runFolds c.folds).isSome)).foldl selectStep acc := by
  induction l generalizing acc with
  | nil => rfl
  | cons c t ih =>
    rcases hr : runFolds c.folds with _ | l'
    · have hs : (runFolds c.folds).isSome = false := by simp [hr]
      simp [List.filter_cons, hs, selectStep_of_runFolds_none _ _ hr, ih]
    · have hs : (runFolds c.folds).isSome = true := by simp [hr]
      simp [List.filter_cons, hs, ih]

theorem foldl_selectStep_mem (l : List Candidate)
    (acc : Option (Candidate × ℚ)) (p : Candidate × ℚ)
    (h : l.foldl selectStep acc = some p) :
    acc = some p ∨ ∃ c ∈ l, p.1 = c ∧ candidateAvg c = some p.2 := by
  induction l generalizing acc with
  | nil => exact Or.inl h
  | cons c t ih =>
    rcases ih (selectStep acc c) h with h' | ⟨c', hc', he⟩
    · revert h'
      unfold selectStep
      rcases hc : candidateAvg c with _ | avg
      · exact fun h' => Or.inl h'
      · rcases acc with _ | ⟨b, bm⟩
        · intro h'
          refine Or.inr ⟨c, List.mem_cons_self c t, ?_⟩
          obtain rfl : (c, avg) = p := Option.some.inj h'
          exact ⟨rfl, hc⟩
        · simp only []
          split_ifs
          · intro h'
            refine Or.inr ⟨c, List.mem_cons_self c t, ?_⟩
            obtain rfl : (c, avg) = p := Option.some.inj h'
            exact ⟨rfl, hc⟩
          · exact fun h' => Or.inl h'
    · exact Or.inr ⟨c', List.mem_cons_of_mem c hc', he⟩

theorem compareModelsResults_mem (cands : List Candidate) (c : Candidate)
    (hc : c ∈ cands) (hne : c.folds.reduceOption ≠ []) :
    (c.name, avgMse c.folds.reduceOption) ∈ compareModelsResults cands := by
  induction cands with
  | nil => cases hc
  | cons d t ih =>
    rcases List.mem_cons.mp hc with rfl | hm
    · simp [compareModelsResults, List.filterMap_cons, nanmean_eq_some _ hne]
    · simp only [compareModelsResults, List.filterMap_cons]
      rcases nanmean d.folds with _ | m
      · exact ih hm
      · exact List.mem_cons_of_mem _ (ih hm)

/-- C3 amended: in `get_best_model_by_mse` a candidate whose fit/predict
raises on any cross-validation fold is skipped in its entirety (all its
fold scores are discarded, not just the raising fold's): selection runs
exactly as if the raising candidates were absent, completes rather than
aborting, and the selected candidate always evaluated every fold without
exception — so a candidate with all folds failing is never selected. The
per-fold rule the claim describes (raising fold recorded as NaN, mean over
the non-NaN folds only, all-NaN candidate dropped) holds instead in
`compare_models`, whose results table gives every candidate with at least
one surviving fold the mean of its non-NaN folds. -/
theorem getBest_failure_semantics (cands : List Candidate) :
    getBestModelByMse cands =
        getBestModelByMse
          (cands.filter (fun c => (runFolds c.folds).isSome)) ∧
      (∀ n : String, (getBestModelByMse cands).2 = some n →
        ∃ c ∈ cands, c.name = n ∧ (runFolds c.folds).isSome) ∧
      (∀ c ∈ cands, c.folds.reduceOption ≠ [] →
        (c.name, avgMse c.folds.reduceOption) ∈ compareModelsResults cands) := by
  refine ⟨?_, ?_, fun c hc hne => compareModelsResults_mem cands c hc hne⟩
  · unfold getBestModelByMse selectBest
    rw [foldl_selectStep_filter]
  · intro n hn
    unfold getBestModelByMse selectBest at hn
    rcases hp : cands.foldl selectStep none with _ | ⟨pc, pm⟩
    · rw [hp] at hn; cases hn
    · rw [hp] at hn
      rcases foldl_selectStep_mem cands none (pc, pm) hp with h | ⟨c, hc, hpc, he⟩
      · cases h
      · refine ⟨c, hc, ?_, ?_⟩
        · rw [← hpc]; exact Option.some.inj hn
        · unfold candidateAvg at he
          rcases hr : runFolds c.folds with _ | l
          · rw [hr] at he; cases he
          · rfl

theorem getBest_failure_semantics_witness :
    ∃ c ∈ candidateList [none, some 0, some 0] [some 1, some 1, some 1]
        [some 2, some 2, some 2] [some 3, some 3, some 3],
      c.name = "Linear" ∧ (runFolds c.folds).isSome :=
  (getBest_failure_semantics
      (candidateList [none, some 0, some 0] [some 1, some 1, some 1]
        [some 2, some 2, some 2] [some 3, some 3, some 3])).2.1 "Linear"
    (by norm_num [getBestModelByMse, selectBest, candidateList, selectStep,
      candidateAvg, runFolds, avgMse])

/-- `int(len(X_reset) * (1 - test_size))` of line 580: Python `int()`
truncates toward zero, and for `test_size ≤ 1` the operand is
nonnegative, so it is the floor. -/
def splitIndex (n : ℕ) (testSize : ℚ) : ℕ :=
  (⌊(n : ℚ) * (1 - testSize)⌋).toNat

/-- The hold-out split of `get_best_model_by_mse` (lines 576-586; the same
policy appears in `train_and_evaluate_model` lines 112-122 and
`compare_models` lines 255-263): after `reset_index`, if `test_size > 0`
the rows before `split_index` are the training pool and the rows from
`split_index` on are the hold-out set; otherwise all rows are the
training pool and there is no hold-out set (`X_val = None`). -/
def holdoutSplit {α : Type} (rows : List α) (testSize : ℚ) :
    List α × Option (List α) :=
  if 0 < testSize then
    (rows.take (splitIndex rows.length testSize),
      some (rows.drop (splitIndex rows.length testSize)))
  else (rows, none)

theorem splitIndex_le {n : ℕ} {ts : ℚ} (h : 0 ≤ ts) : splitIndex n ts ≤ n := by
  unfold splitIndex
  have h1 : ((n : ℚ) * (1 - ts)) ≤ (n : ℚ) := by
    nlinarith [Rat.num_nonneg.mpr (by positivity : (0:ℚ) ≤ (n:ℚ))]
  have h2 : ⌊(n : ℚ) * (1 - ts)⌋ ≤ (n : ℤ) := by
    calc ⌊(n : ℚ) * (1 - ts)⌋ ≤ ⌊(n : ℚ)⌋ := Int.floor_le_floor h1
    _ = (n : ℤ) := Int.floor_natCast n
  omega

/-- C2: the hold-out split is purely chronological after index reset.
For `test_size > 0` (and `test_size ≤ 1`), the training pool is exactly
the rows at indices `0 .. int(n*(1-test_size)) - 1` in original order and
the hold-out set is exactly the remaining final rows in original order
(training pool and hold-out concatenate back to the input — nothing is
shuffled); for `test_size = 0` every row is training pool and there is no
hold-out set. -/
theorem holdout_split_chronological {α : Type} (rows : List α) (ts : ℚ)
    (hle : ts ≤ 1) :
    (0 < ts →
      (holdoutSplit rows ts).1.length = splitIndex rows.length ts ∧
      (∀ i : ℕ, i < splitIndex rows.length ts →
        (holdoutSplit rows ts).1[i]? = rows[i]?) ∧
      ∃ ho, (holdoutSplit rows ts).2 = some ho ∧
        (∀ j : ℕ, ho[j]? = rows[splitIndex rows.length ts + j]?) ∧
        (holdoutSplit rows ts).1 ++ ho = rows) ∧
    (ts = 0 → holdoutSplit rows ts = (rows, none)) := by
  constructor
  · intro hpos
    have hsplit : holdoutSplit rows ts =
        (rows.take (splitIndex rows.length ts),
          some (rows.drop (splitIndex rows.length ts))) := by
      unfold holdoutSplit
      rw [if_pos hpos]
    refine ⟨?_, ?_, rows.drop (splitIndex rows.length ts), ?_, ?_, ?_⟩
    · rw [hsplit]
      simp only [List.length_take]
      exact Nat.min_eq_left (splitIndex_le (le_of_lt hpos))
    · intro i hi
      rw [hsplit]
      exact List.getElem?_take_of_lt hi
    · rw [hsplit]
    · intro j
      exact List.getElem?_drop rows (splitIndex rows.length ts) j
    · rw [hsplit]
      exact List.take_append_drop _ rows
  · intro hz
    unfold holdoutSplit
    rw [hz]
    norm_num

theorem holdout_split_chronological_witness :
    ((1 : ℚ)/5 ≤ 1) ∧
      ((0 < (1 : ℚ)/5 →
        (holdoutSplit (List.range 100) ((1 : ℚ)/5)).1.length =
          splitIndex (List.range 100).length ((1 : ℚ)/5) ∧
        (∀ i : ℕ, i < splitIndex (List.range 100).length ((1 : ℚ)/5) →
          (holdoutSplit (List.range 100) ((1 : ℚ)/5)).1[i]? =
            (List.range 100)[i]?) ∧
        ∃ ho, (holdoutSplit (List.range 100) ((1 : ℚ)/5)).2 = some ho ∧
          (∀ j : ℕ, ho[j]? =
            (List.range 100)[splitIndex (List.range 100).length
              ((1 : ℚ)/5) + j]?) ∧
          (holdoutSplit (List.range 100) ((1 : ℚ)/5)).1 ++ ho =
            List.range 100) ∧
      ((1 : ℚ)/5 = 0 →
        holdoutSplit (List.range 100) ((1 : ℚ)/5) = (List.range 100, none))) ∧
      splitIndex (List.range 100).length ((1 : ℚ)/5) = 80 :=
  ⟨by norm_num,
   holdout_split_chronological (List.range 100) ((1 : ℚ)/5) (by norm_num),
   by norm_num [splitIndex]; decide⟩

/-- One pass plus continuation of the `while True` loop of
`remove_high_vif_features` (preprocessing.py lines 46-58), with the
statsmodels call abstracted: `vif cols c` is
`variance_inflation_factor(X[cols].values, i)` for column `c` of the
current column set `cols`. Each iteration recomputes the VIF series over
the remaining columns; `max_vif = vif.max()` and `vif.idxmax()` (the
first column attaining the maximum, as `List.argmax` does) are compared
against the threshold: strictly above it the column is dropped and the
loop repeats, otherwise the loop breaks. The fuel, set to the initial
column count, is an upper bound on the iterations actually taken since
every iteration removes one column. -/
def removeVifLoop (vif : List String → String → ℚ) (thr : ℚ) :
    ℕ → List String → List String
  | 0, cols => cols
  | fuel + 1, cols =>
    (cols.argmax (vif cols)).elim cols
      (fun c =>
        if thr < vif cols c then removeVifLoop vif thr fuel (cols.erase c)
        else cols)

/-- `remove_high_vif_features(X, threshold)` on the column set of `X`. -/
def removeHighVifFeatures (vif : List String → String → ℚ) (thr : ℚ)
    (cols : List String) : List String :=
  removeVifLoop vif thr cols.length cols

theorem removeVifLoop_succ_eq (vif : List String → String → ℚ) (thr : ℚ)
    (fuel : ℕ) (cols : List String) :
    removeVifLoop vif thr (fuel + 1) cols =
      (cols.argmax (vif cols)).elim cols
        (fun c =>
          if thr < vif cols c then
            removeVifLoop vif thr fuel (cols.erase c)
          else cols) :=
  rfl

theorem removeVifLoop_nil (vif : List String → String → ℚ) (thr : ℚ)
    (fuel : ℕ) : removeVifLoop vif thr fuel [] = [] := by
  cases fuel with
  | zero => rfl
  | succ f => rw [removeVifLoop_succ_eq, List.argmax_nil]; rfl

theorem removeVifLoop_length_le (vif : List String → String → ℚ) (thr : ℚ)
    (fuel : ℕ) (cols : List String) :
    (removeVifLoop vif thr fuel cols).length ≤ cols.length := by
  induction fuel generalizing cols with
  | zero => exact le_refl _
  | succ f ih =>
    rw [removeVifLoop_succ_eq]
    rcases ha : cols.argmax (vif cols) with _ | c
    · exact le_refl _
    · simp only [Option.elim_some]
      split_ifs
      · calc (removeVifLoop vif thr f (cols.erase c)).length
            ≤ (cols.erase c).length := ih (cols.erase c)
          _ ≤ cols.length := List.length_erase_le c cols
      · exact le_refl _

theorem removeVifLoop_fuel_mono (vif : List String → String → ℚ) (thr : ℚ)
    (f : ℕ) :
    ∀ (g : ℕ) (cols : List String), cols.length ≤ f → cols.length ≤ g →
      removeVifLoop vif thr f cols = removeVifLoop vif thr g cols := by
  induction f with
  | zero =>
    intro g cols h1 _
    have : cols = [] := List.length_eq_zero.mp (Nat.le_zero.mp h1)
    subst this
    rw [removeVifLoop_nil, removeVifLoop_nil]
  | succ f ih =>
    intro g cols h1 h2
    rcases cols with _ | ⟨a, t⟩
    · rw [removeVifLoop_nil, removeVifLoop_nil]
    · rcases g with _ | g
      · simp at h2
      · rw [removeVifLoop_succ_eq, removeVifLoop_succ_eq]
        rcases ha : (a :: t).argmax (vif (a :: t)) with _ | c
        · rfl
        · simp only [Option.elim_some]
          split_ifs
          · have hm : c ∈ a :: t := List.argmax_mem ha
            have he : ((a :: t).erase c).length = t.length := by
              rw [List.length_erase_of_mem hm]
              simp
            simp only [List.length_cons] at h1 h2
            exact ih g ((a :: t).erase c) (by omega) (by omega)
          · rfl

theorem removeVifLoop_eq_removeHigh (vif : List String → String → ℚ)
    (thr : ℚ) (fuel : ℕ) (cols : List String) (h : cols.length ≤ fuel) :
    removeVifLoop vif thr fuel cols = removeHighVifFeatures vif thr cols :=
  removeVifLoop_fuel_mono vif thr fuel cols.length cols h (le_refl _)

theorem removeHigh_drop_step (vif : List String → String → ℚ) (thr : ℚ)
    (cols : List String) (c : String)
    (ha : cols.argmax (vif cols) = some c) (hgt : thr < vif cols c) :
    removeHighVifFeatures vif thr cols =
      removeHighVifFeatures vif thr (cols.erase c) := by
  have hm : c ∈ cols := List.argmax_mem ha
  have hpos : 0 < cols.length := List.length_pos.mpr (List.ne_nil_of_mem hm)
  have he : (cols.erase c).length = cols.length - 1 :=
    List.length_erase_of_mem hm
  obtain ⟨n, hn⟩ : ∃ n, cols.length = n + 1 := ⟨cols.length - 1, by omega⟩
  unfold removeHighVifFeatures
  rw [hn, removeVifLoop_succ_eq, ha, Option.elim_some, if_pos hgt]
  exact removeVifLoop_fuel_mono vif thr n (cols.erase c).length
    (cols.erase c) (by omega) (le_refl _)

theorem removeHigh_postcond (vif : List String → String → ℚ) (thr : ℚ)
    (cols : List String) :
    ∀ c ∈ removeHighVifFeatures vif thr cols,
      vif (removeHighVifFeatures vif thr cols) c ≤ thr := by
  have main : ∀ (fuel : ℕ) (l : List String), l.length ≤ fuel →
      ∀ c ∈ removeVifLoop vif thr fuel l,
        vif (removeVifLoop vif thr fuel l) c ≤ thr := by
    intro fuel
    induction fuel with
    | zero =>
      intro l hl
      have : l = [] := List.length_eq_zero.mp (Nat.le_zero.mp hl)
      subst this
      intro c hc
      cases hc
    | succ f ih =>
      intro l hl
      rw [removeVifLoop_succ_eq]
      rcases ha : l.argmax (vif l) with _ | c
      · have : l = [] := List.argmax_eq_none.mp ha
        subst this
        intro c hc
        cases hc
      · simp only [Option.elim_some]
        split_ifs with hgt
        · have hm : c ∈ l := List.argmax_mem ha
          have he := List.length_erase_of_mem hm
          exact ih (l.erase c) (by omega)
        · intro a hal
          calc vif l a ≤ vif l c := List.le_of_mem_argmax hal ha
            _ ≤ thr := le_of_not_lt hgt
  exact main cols.length cols (le_refl _)

/-- C4: `remove_high_vif_features` iterates: each pass recomputes every
remaining column's VIF and, while the maximum VIF strictly exceeds the
threshold, drops the single first column attaining that maximum (third
conjunct); the result always has every remaining VIF at most the
threshold (first conjunct); and the loop leaves its input unchanged
exactly when all remaining VIFs are at most the threshold or at most one
column remains (second conjunct). The hypotheses record the statsmodels
facts the one-column case rests on: a lone column regressed on no other
columns has R² = 0, hence VIF 1, and the threshold is at least 1 (every
mathematically defined VIF is ≥ 1). -/
theorem removeHighVif_loop_characterization
    (vif : List String → String → ℚ) (thr : ℚ) (cols : List String)
    (hsing : ∀ c, vif [c] c = 1) (hthr : 1 ≤ thr) :
    (∀ c ∈ removeHighVifFeatures vif thr cols,
      vif (removeHighVifFeatures vif thr cols) c ≤ thr) ∧
    (removeHighVifFeatures vif thr cols = cols ↔
      ((∀ c ∈ cols, vif cols c ≤ thr) ∨ cols.length ≤ 1)) ∧
    (∀ c, cols.argmax (vif cols) = some c → thr < vif cols c →
      removeHighVifFeatures vif thr cols =
        removeHighVifFeatures vif thr (cols.erase c)) := by
  refine ⟨removeHigh_postcond vif thr cols, ⟨?_, ?_⟩,
    fun c ha hgt => removeHigh_drop_step vif thr cols c ha hgt⟩
  · intro hfix
    rcases ha : cols.argmax (vif cols) with _ | c
    · have : cols = [] := List.argmax_eq_none.mp ha
      subst this
      exact Or.inl (fun c hc => absurd hc (List.not_mem_nil c))
    · by_cases hgt : thr < vif cols c
      · exfalso
        have hm : c ∈ cols := List.argmax_mem ha
        have hpos : 0 < cols.length :=
          List.length_pos.mpr (List.ne_nil_of_mem hm)
        have he := List.length_erase_of_mem hm
        have hlt : (removeHighVifFeatures vif thr cols).length <
            cols.length := by
          rw [removeHigh_drop_step vif thr cols c ha hgt]
          calc (removeHighVifFeatures vif thr (cols.erase c)).length
              ≤ (cols.erase c).length := removeVifLoop_length_le _ _ _ _
            _ = cols.length - 1 := he
            _ < cols.length := by omega
        rw [hfix] at hlt
        exact lt_irrefl _ hlt
      · exact Or.inl (fun a hal =>
          le_trans (List.le_of_mem_argmax hal ha) (le_of_not_lt hgt))
  · intro hstop
    rcases cols with _ | ⟨a, t⟩
    · exact removeVifLoop_nil vif thr 0
    · rcases hstop with hall | hlen
      · unfold removeHighVifFeatures
        rw [List.length_cons, removeVifLoop_succ_eq]
        rcases ha : (a :: t).argmax (vif (a :: t)) with _ | c
        · rfl
        · have hm : c ∈ a :: t := List.argmax_mem ha
          rw [Option.elim_some, if_neg (not_lt.mpr (hall c hm))]
      · have ht : t = [] := by
          simp only [List.length_cons] at hlen
          exact List.length_eq_zero.mp (by omega)
        subst ht
        unfold removeHighVifFeatures
        rw [List.length_cons, removeVifLoop_succ_eq, List.argmax_singleton]
        show (if thr < vif [a] a then removeVifLoop vif thr 0 ([a].erase a)
          else [a]) = [a]
        rw [if_neg (not_lt.mpr (by rw [hsing a]; exact hthr))]

/-- When some remaining column's VIF strictly exceeds the threshold, the
first loop iteration of `remove_high_vif_features` drops a column, so the
output has strictly fewer columns than the input. -/
theorem removeHighVif_strictly_reduces (vif : List String → String → ℚ)
    (thr : ℚ) (cols : List String)
    (h : ∃ c ∈ cols, thr < vif cols c) :
    (removeHighVifFeatures vif thr cols).length < cols.length := by
  obtain ⟨c0, hc0, hgt0⟩ := h
  have hne : cols ≠ [] := List.ne_nil_of_mem hc0
  rcases ha : cols.argmax (vif cols) with _ | c
  · exact absurd (List.argmax_eq_none.mp ha) hne
  · have hgt : thr < vif cols c :=
      lt_of_lt_of_le hgt0 (List.le_of_mem_argmax hc0 ha)
    rw [removeHigh_drop_step vif thr cols c ha hgt]
    have hm : c ∈ cols := List.argmax_mem ha
    have hpos : 0 < cols.length := List.length_pos.mpr hne
    calc (removeHighVifFeatures vif thr (cols.erase c)).length
        ≤ (cols.erase c).length := removeVifLoop_length_le _ _ _ _
      _ = cols.length - 1 := List.length_erase_of_mem hm
      _ < cols.length := by omega

/-- A concrete VIF table for instantiating the VIF theorems: with two or
more columns present, column A has VIF 10 and every other column VIF 2; a
lone remaining column has VIF 1. -/
def vifEx : List String → String → ℚ := fun cols c =>
  if cols.length ≤ 1 then 1 else if c = "A" then 10 else 2

theorem removeHighVif_loop_characterization_witness :
    (∀ c, vifEx [c] c = 1) ∧ ((1 : ℚ) ≤ 5) ∧
    ((∀ c ∈ removeHighVifFeatures vifEx 5 ["A", "B"],
        vifEx (removeHighVifFeatures vifEx 5 ["A", "B"]) c ≤ 5) ∧
     (removeHighVifFeatures vifEx 5 ["A", "B"] = ["A", "B"] ↔
       ((∀ c ∈ (["A", "B"] : List String), vifEx ["A", "B"] c ≤ 5) ∨
         (["A", "B"] : List String).length ≤ 1)) ∧
     (∀ c, (["A", "B"] : List String).argmax (vifEx ["A", "B"]) = some c →
       5 < vifEx ["A", "B"] c →
       removeHighVifFeatures vifEx 5 ["A", "B"] =
         removeHighVifFeatures vifEx 5 ((["A", "B"] : List String).erase c))) :=
  ⟨fun c => by simp [vifEx], by norm_num,
   removeHighVif_loop_characterization vifEx 5 ["A", "B"]
     (fun c => by simp [vifEx]) (by norm_num)⟩

/-- A concrete VIF table in which columns A and B are exactly collinear:
while both are present, A's VIF is 10 (statsmodels would report infinity;
any value above the threshold exhibits the behavior) and other columns
have VIF 2; once the pair is broken every VIF is 1. -/
def vifPairEx : List String → String → ℚ := fun cols c =>
  if "A" ∈ cols ∧ "B" ∈ cols then (if c = "A" then 10 else 2) else 1

/-- C7: for a feature matrix containing a column `a` exactly collinear
with another column `b` — so that statsmodels reports an unbounded VIF
for `a` (regressing `a` on a set containing `b` gives R² = 1, VIF = ∞,
above every threshold) whenever both remain —
`remove_high_vif_features` removes at least one column of the collinear
pair, and its output has strictly fewer columns than its input. -/
theorem removeHighVif_removes_collinear_pair_member
    (vif : List String → String → ℚ) (thr : ℚ) (cols : List String)
    (a b : String) (ha : a ∈ cols) (hb : b ∈ cols)
    (hpair : ∀ l : List String, a ∈ l → b ∈ l → thr < vif l a) :
    (a ∉ removeHighVifFeatures vif thr cols ∨
      b ∉ removeHighVifFeatures vif thr cols) ∧
    (removeHighVifFeatures vif thr cols).length < cols.length := by
  constructor
  · by_contra hcon
    push_neg at hcon
    obtain ⟨haR, hbR⟩ := hcon
    exact absurd (removeHigh_postcond vif thr cols a haR)
      (not_le.mpr (hpair _ haR hbR))
  · exact removeHighVif_strictly_reduces vif thr cols
      ⟨a, ha, hpair cols ha hb⟩

theorem removeHighVif_removes_collinear_pair_member_witness :
    ("A" ∈ (["A", "B", "C"] : List String)) ∧
      ("B" ∈ (["A", "B", "C"] : List String)) ∧
      (∀ l : List String, "A" ∈ l → "B" ∈ l → (5 : ℚ) < vifPairEx l "A") ∧
      (("A" ∉ removeHighVifFeatures vifPairEx 5 ["A", "B", "C"] ∨
          "B" ∉ removeHighVifFeatures vifPairEx 5 ["A", "B", "C"]) ∧
        (removeHighVifFeatures vifPairEx 5 ["A", "B", "C"]).length <
          (["A", "B", "C"] : List String).length) :=
  ⟨by simp, by simp,
   fun l hA hB => by norm_num [vifPairEx, hA, hB],
   removeHighVif_removes_collinear_pair_member vifPairEx 5 ["A", "B", "C"]
     "A" "B" (by simp) (by simp)
     (fun l hA hB => by norm_num [vifPairEx, hA, hB])⟩

/-- Line 97 of preprocessing.py: `k_best = min(k_best, X_vif.shape[1])` —
a `k_best` larger than the column count surviving VIF pruning is silently
clamped down before `SelectKBest` runs. -/
def effectiveKBest (kBest nVif : ℕ) : ℕ := min kBest nVif

/-- The force-include loop of `preprocess_features` (lines 103-112): for
each name in `force_include`, if it is a column of the *original* X and
not already in `selected_columns`, it is appended at the end of the list
(after being individually standardized, a data-level step not modelled on
column names). -/
def addForced (xcols : List String) (sel : List String)
    (forced : List String) : List String :=
  forced.foldl
    (fun acc col => if col ∈ xcols ∧ col ∉ acc then acc ++ [col] else acc)
    sel

theorem addForced_nil (xcols sel : List String) :
    addForced xcols sel [] = sel := rfl

theorem addForced_cons (xcols sel : List String) (c : String)
    (rest : List String) :
    addForced xcols sel (c :: rest) =
      addForced xcols
        (if c ∈ xcols ∧ c ∉ sel then sel ++ [c] else sel) rest := by
  unfold addForced
  rw [List.foldl_cons]

theorem addForced_length_le (xcols : List String) (forced : List String) :
    ∀ sel : List String,
      (addForced xcols sel forced).length ≤
        sel.length +
          (forced.filter (fun c => decide (c ∈ xcols ∧ c ∉ sel))).length := by
  induction forced with
  | nil => intro sel; simp [addForced_nil]
  | cons c rest ih =>
    intro sel
    rw [addForced_cons]
    by_cases hq : c ∈ xcols ∧ c ∉ sel
    · rw [if_pos hq]
      have h1 := ih (sel ++ [c])
      have h2 : ((rest.filter
            (fun x => decide (x ∈ xcols ∧ x ∉ sel ++ [c]))).length ≤
          (rest.filter (fun x => decide (x ∈ xcols ∧ x ∉ sel))).length) := by
        refine (List.monotone_filter_right rest ?_).length_le
        intro a ha
        simp only [decide_eq_true_eq] at ha ⊢
        exact ⟨ha.1, fun hm => ha.2 (List.mem_append_left _ hm)⟩
      have h3 : (List.filter (fun x => decide (x ∈ xcols ∧ x ∉ sel))
          (c :: rest)).length =
          (rest.filter (fun x => decide (x ∈ xcols ∧ x ∉ sel))).length + 1 := by
        rw [List.filter_cons_of_pos (by simpa using hq)]
        rfl
      calc (addForced xcols (sel ++ [c]) rest).length
          ≤ (sel ++ [c]).length +
            (rest.filter
              (fun x => decide (x ∈ xcols ∧ x ∉ sel ++ [c]))).length := h1
        _ ≤ sel.length + 1 +
            (rest.filter (fun x => decide (x ∈ xcols ∧ x ∉ sel))).length := by
            simp only [List.length_append, List.length_cons, List.length_nil]
            omega
        _ = sel.length + (List.filter (fun x =>
              decide (x ∈ xcols ∧ x ∉ sel)) (c :: rest)).length := by
            rw [h3]; omega
    · rw [if_neg hq]
      calc (addForced xcols sel rest).length
          ≤ sel.length +
            (rest.filter (fun x => decide (x ∈ xcols ∧ x ∉ sel))).length :=
            ih sel
        _ ≤ sel.length + (List.filter (fun x =>
              decide (x ∈ xcols ∧ x ∉ sel)) (c :: rest)).length := by
            rw [List.filter_cons_of_neg (by simpa using hq)]

/-- C5: the number of columns `preprocess_features` returns never exceeds
`min(k_best, columns surviving VIF pruning)` plus the number of
`force_include` names present in the original X and not already selected;
and the clamped `k_best` never exceeds the available column count (a
`k_best` larger than it is silently reduced, not an error). The
hypothesis is sklearn's `SelectKBest` contract: it returns exactly
`k = min(k_best, n_columns)` columns. -/
theorem preprocess_column_count_bound (xcols vifCols selected forced :
    List String) (kBest : ℕ)
    (hsel : selected.length = effectiveKBest kBest vifCols.length) :
    (addForced xcols selected forced).length ≤
        min kBest vifCols.length +
          (forced.filter
            (fun c => decide (c ∈ xcols ∧ c ∉ selected))).length ∧
      effectiveKBest kBest vifCols.length ≤ vifCols.length := by
  constructor
  · calc (addForced xcols selected forced).length
        ≤ selected.length + (forced.filter
            (fun c => decide (c ∈ xcols ∧ c ∉ selected))).length :=
          addForced_length_le xcols forced selected
      _ = min kBest vifCols.length + (forced.filter
            (fun c => decide (c ∈ xcols ∧ c ∉ selected))).length := by
          rw [hsel]; rfl
  · exact min_le_right _ _

theorem preprocess_column_count_bound_witness :
    ((["A", "B", "C"] : List String).length =
        effectiveKBest 10 (["A", "B", "C"] : List String).length) ∧
      ((addForced ["A", "B", "C", "D"] ["A", "B", "C"] ["D"]).length ≤
          min 10 (["A", "B", "C"] : List String).length +
            ((["D"] : List String).filter (fun c =>
              decide (c ∈ (["A", "B", "C", "D"] : List String) ∧
                c ∉ (["A", "B", "C"] : List String)))).length ∧
        effectiveKBest 10 (["A", "B", "C"] : List String).length ≤
          (["A", "B", "C"] : List String).length) :=
  ⟨rfl, preprocess_column_count_bound ["A", "B", "C", "D"] ["A", "B", "C"]
    ["A", "B", "C"] ["D"] 10 rfl⟩

theorem addForced_mem_of_mem (xcols : List String) (forced : List String) :
    ∀ (sel : List String) (x : String), x ∈ sel →
      x ∈ addForced xcols sel forced := by
  induction forced with
  | nil => intro sel x hx; exact hx
  | cons c rest ih =>
    intro sel x hx
    rw [addForced_cons]
    split_ifs
    · exact ih (sel ++ [c]) x (List.mem_append_left _ hx)
    · exact ih sel x hx

theorem addForced_append_structure (xcols : List String)
    (forced : List String) :
    ∀ sel : List String, ∃ extra : List String,
      addForced xcols sel forced = sel ++ extra ∧
        ∀ e ∈ extra, e ∈ forced := by
  induction forced with
  | nil => exact fun sel => ⟨[], by simp [addForced_nil]⟩
  | cons c rest ih =>
    intro sel
    rw [addForced_cons]
    split_ifs
    · obtain ⟨extra, he, hsub⟩ := ih (sel ++ [c])
      exact ⟨c :: extra, by rw [he]; simp,
        fun e hme => by
          rcases List.mem_cons.mp hme with rfl | hme'
          · exact List.mem_cons_self _ _
          · exact List.mem_cons_of_mem _ (hsub e hme')⟩
    · obtain ⟨extra, he, hsub⟩ := ih sel
      exact ⟨extra, he, fun e hme => List.mem_cons_of_mem _ (hsub e hme)⟩

/-- C6: every `force_include` name present in the original X's columns is
present in the output of `preprocess_features`, regardless of whether VIF
pruning or the F-test dropped it (`selected` is arbitrary here), and the
force-included names are appended after the selected set, which is kept
intact as a prefix of the output. -/
theorem preprocess_force_include_present (xcols sel forced : List String)
    (c : String) (hf : c ∈ forced) (hx : c ∈ xcols) :
    c ∈ addForced xcols sel forced ∧
      ∃ extra : List String, addForced xcols sel forced = sel ++ extra ∧
        ∀ e ∈ extra, e ∈ forced := by
  refine ⟨?_, addForced_append_structure xcols forced sel⟩
  induction forced generalizing sel with
  | nil => cases hf
  | cons d rest ih =>
    rw [addForced_cons]
    rcases List.mem_cons.mp hf with rfl | hrest
    · by_cases hq : c ∈ xcols ∧ c ∉ sel
      · rw [if_pos hq]
        exact addForced_mem_of_mem xcols rest (sel ++ [c]) c
          (List.mem_append_right _ (List.mem_singleton.mpr rfl))
      · rw [if_neg hq]
        have hcsel : c ∈ sel := by
          by_contra hns
          exact hq ⟨hx, hns⟩
        exact addForced_mem_of_mem xcols rest sel c hcsel
    · split_ifs
      · exact ih (sel ++ [d]) hrest
      · exact ih sel hrest

theorem preprocess_force_include_present_witness :
    ("D" ∈ (["D", "E"] : List String)) ∧
      ("D" ∈ (["A", "B", "D"] : List String)) ∧
      ("D" ∈ addForced ["A", "B", "D"] ["A", "B"] ["D", "E"] ∧
        ∃ extra : List String,
          addForced ["A", "B", "D"] ["A", "B"] ["D", "E"] =
            ["A", "B"] ++ extra ∧
          ∀ e ∈ extra, e ∈ (["D", "E"] : List String)) :=
  ⟨by simp, by simp,
   preprocess_force_include_present ["A", "B", "D"] ["A", "B"] ["D", "E"]
     "D" (by simp) (by simp)⟩

/-- `series.shift(1).fillna(0)` on a column of n rows: each value moves
down one row, the first row becomes 0, the last value falls off (lines
148 and 150 of prediction_profit.py). -/
def shiftFill : List ℚ → List ℚ
  | [] => []
  | x :: rest => 0 :: (x :: rest).dropLast

/-- Line 149: `np.where(all_predictions > last_known_price, 1, 0)` with
`last_known_price = close.shift(1).fillna(0)` (line 148). -/
def rawSignals (preds closes : List ℚ) : List ℚ :=
  List.zipWith (fun p lk => if lk < p then 1 else 0) preds (shiftFill closes)

/-- Line 150: the signal series shifted one period with the first entry
filled 0 — the applied signal. -/
def appliedSignals (preds closes : List ℚ) : List ℚ :=
  shiftFill (rawSignals preds closes)

/-- Line 152: `close.pct_change().fillna(0)`. Values are floats carrying
a finite value (`some`) or a non-finite one (`none` stands for ±inf as
well as NaN); the CSV closes and the signals are finite, so non-finite
values enter only here and then propagate. NaN entries — the first row
and the `0/0` rows — are filled with 0; a zero previous close with a
nonzero current close gives `(cur - 0)/0 = ±inf`, which `fillna(0)` does
NOT touch, so it stays non-finite (`none`); other rows get the finite
`(c_t - c_(t-1)) / c_(t-1)`. -/
def pctChange : List ℚ → List (Option ℚ)
  | [] => []
  | c :: rest =>
    some 0 ::
      List.zipWith
        (fun prev cur =>
          if prev = 0 then (if cur = 0 then some 0 else none)
          else some ((cur - prev) / prev))
        (c :: rest) rest

/-- Float multiplication when an operand may be non-finite: both operands
finite gives the finite product; a non-finite operand makes the result
non-finite whatever the other operand is (`inf * 0 = NaN`,
`inf * x = ±inf`, `NaN * x = NaN`). -/
def mulOpt (x y : Option ℚ) : Option ℚ :=
  match x, y with
  | some a, some b => some (a * b)
  | _, _ => none

/-- Line 154: `strategy_returns = daily_returns * signals` (the signals
are finite 0/1 values). -/
def strategyReturns (preds closes : List ℚ) : List (Option ℚ) :=
  List.zipWith (fun r s => mulOpt r (some s)) (pctChange closes)
    (appliedSignals preds closes)

/-- `.cumprod()`: running product; a non-finite factor keeps every later
entry non-finite. -/
def cumprodOpt : List (Option ℚ) → List (Option ℚ)
  | [] => []
  | x :: rest => x :: (cumprodOpt rest).map (mulOpt x)

/-- Lines 156-160: the balance column written into `profit_evolution`:
`initial_investment * (1 + strategy_returns).cumprod()`. -/
def balanceColumn (initial : ℚ) (preds closes : List ℚ) :
    List (Option ℚ) :=
  (cumprodOpt ((strategyReturns preds closes).map
      (Option.map (fun r => 1 + r)))).map
    (fun v => mulOpt (some initial) v)

theorem shiftFill_length (xs : List ℚ) : (shiftFill xs).length = xs.length := by
  cases xs with
  | nil => rfl
  | cons x rest =>
    simp [shiftFill, List.length_dropLast]

theorem pctChange_length (xs : List ℚ) : (pctChange xs).length = xs.length := by
  cases xs with
  | nil => rfl
  | cons c rest =>
    simp [pctChange, List.length_zipWith]

theorem zipWith_pct_entries :
    ∀ (l2 l1 : List ℚ), (∀ a ∈ l1.take l2.length, a ≠ 0) →
      ∀ x ∈ List.zipWith
        (fun prev cur =>
          if prev = 0 then (if cur = 0 then (some 0 : Option ℚ) else none)
          else some ((cur - prev) / prev)) l1 l2,
        ∃ r : ℚ, x = some r := by
  intro l2
  induction l2 with
  | nil => intro l1 _ x hx; simp at hx
  | cons b l2t ih =>
    intro l1 hne x hx
    cases l1 with
    | nil => simp at hx
    | cons a l1t =>
      rw [List.zipWith_cons_cons] at hx
      rcases List.mem_cons.mp hx with rfl | hx'
      · have ha : a ≠ 0 := by
          refine hne a ?_
          simp only [List.length_cons, List.take_succ_cons]
          exact List.mem_cons_self _ _
        exact ⟨(b - a) / a, by rw [if_neg ha]⟩
      · refine ih l1t (fun y hy => hne y ?_) x hx'
        simp only [List.length_cons, List.take_succ_cons]
        exact List.mem_cons_of_mem _ hy

theorem pctChange_entries_finite (closes : List ℚ)
    (hfin : ∀ c ∈ closes.dropLast, c ≠ 0) :
    ∀ x ∈ pctChange closes, ∃ r : ℚ, x = some r := by
  cases closes with
  | nil => intro x hx; cases hx
  | cons c rest =>
    intro x hx
    rcases List.mem_cons.mp hx with rfl | hx'
    · exact ⟨0, rfl⟩
    · refine zipWith_pct_entries rest (c :: rest) ?_ x hx'
      intro a hmem
      refine hfin a ?_
      have : (c :: rest).dropLast = (c :: rest).take rest.length := by
        rw [List.dropLast_eq_take]
        simp
      rw [this]
      exact hmem

theorem zipWith_mulOpt_zeros :
    ∀ a : List (Option ℚ), (∀ x ∈ a, ∃ r : ℚ, x = some r) →
      ∀ b : List ℚ, (∀ s ∈ b, s = 0) →
        List.zipWith (fun r s => mulOpt r (some s)) a b =
          List.replicate (min a.length b.length) (some 0) := by
  intro a
  induction a with
  | nil => intro _ b _; simp
  | cons x xs ih =>
    intro hsome b hb
    cases b with
    | nil => simp
    | cons y ys =>
      obtain ⟨r, rfl⟩ := hsome x (List.mem_cons_self x xs)
      have hy : y = 0 := hb y (List.mem_cons_self y ys)
      rw [List.zipWith_cons_cons,
        ih (fun z hz => hsome z (List.mem_cons_of_mem _ hz)) ys
          (fun s hs => hb s (List.mem_cons_of_mem _ hs)), hy]
      simp only [List.length_cons, Nat.succ_min_succ, List.replicate_succ,
        mulOpt, mul_zero]

theorem cumprodOpt_replicate_one (n : ℕ) :
    cumprodOpt (List.replicate n (some 1)) =
      List.replicate n (some (1 : ℚ)) := by
  induction n with
  | zero => rfl
  | succ m ih =>
    rw [List.replicate_succ, cumprodOpt, ih, List.map_replicate]
    simp [mulOpt]

/-- C8 counterexample: closes `[1, 0, 1]` with predictions `[0, 0, 0]`
and `initial_investment = 1000` make every applied signal 0, yet the
balance column is `[1000, 1000, NaN]`, not 1000 at every row: at the
zero close `pct_change` yields `inf` (left by `fillna(0)`), the strategy
return `inf * 0` is NaN, and `cumprod` keeps it NaN. -/
theorem backtest_zero_close_nan_counterexample :
    (∀ s ∈ appliedSignals [0, 0, 0] [1, 0, 1], s = 0) ∧
      balanceColumn 1000 [0, 0, 0] [1, 0, 1] =
        [some 1000, some 1000, none] ∧
      balanceColumn 1000 [0, 0, 0] [1, 0, 1] ≠
        List.replicate ([1, 0, 1] : List ℚ).length (some (1000 : ℚ)) := by
  have h2 : balanceColumn 1000 [0, 0, 0] [1, 0, 1] =
      [some 1000, some 1000, none] := by
    norm_num [balanceColumn, strategyReturns, pctChange, appliedSignals,
      rawSignals, shiftFill, cumprodOpt, mulOpt]
  refine ⟨?_, h2, ?_⟩
  · norm_num [appliedSignals, rawSignals, shiftFill]
  · rw [h2]
    simp [List.replicate]

/-- C8 amended: in `simulate_investment_and_profit`, for every price
series whose closes before the last row are nonzero (so `pct_change`
never divides by a zero previous close and every daily return is finite)
and every `initial_investment`, if all applied (shifted) signals are 0
then the balance column equals `initial_investment` at every row: the
strategy returns vanish, the cumulative product of
`1 + strategy_return` is 1 everywhere, and the purely multiplicative
compounding keeps the balance at its initial value. -/
theorem backtest_flat_signals_constant_balance (preds closes : List ℚ)
    (initial : ℚ) (hlen : preds.length = closes.length)
    (hfin : ∀ c ∈ closes.dropLast, c ≠ 0)
    (hzero : ∀ s ∈ appliedSignals preds closes, s = 0) :
    balanceColumn initial preds closes =
      List.replicate closes.length (some initial) := by
  have haslen : (appliedSignals preds closes).length = closes.length := by
    unfold appliedSignals rawSignals
    rw [shiftFill_length, List.length_zipWith, shiftFill_length, hlen,
      Nat.min_self]
  have hsr : strategyReturns preds closes =
      List.replicate closes.length (some 0) := by
    unfold strategyReturns
    rw [zipWith_mulOpt_zeros (pctChange closes)
      (pctChange_entries_finite closes hfin)
      (appliedSignals preds closes) hzero, pctChange_length, haslen,
      Nat.min_self]
  unfold balanceColumn
  rw [hsr, List.map_replicate]
  have h01 : Option.map (fun r : ℚ => 1 + r) (some 0) = some 1 := by
    norm_num
  rw [h01, cumprodOpt_replicate_one, List.map_replicate]
  simp [mulOpt]

theorem backtest_flat_signals_constant_balance_witness :
    ((([0, 0, 0] : List ℚ).length = ([1, 2, 3] : List ℚ).length) ∧
      (∀ c ∈ ([1, 2, 3] : List ℚ).dropLast, c ≠ 0) ∧
      (∀ s ∈ appliedSignals [0, 0, 0] [1, 2, 3], s = 0)) ∧
      balanceColumn 1000 [0, 0, 0] [1, 2, 3] =
        List.replicate ([1, 2, 3] : List ℚ).length (some (1000 : ℚ)) :=
  ⟨⟨rfl, by norm_num [List.dropLast],
    by norm_num [appliedSignals, rawSignals, shiftFill]⟩,
   backtest_flat_signals_constant_balance [0, 0, 0] [1, 2, 3] 1000 rfl
     (by norm_num [List.dropLast])
     (by norm_num [appliedSignals, rawSignals, shiftFill])⟩

end CriptoIA
